import Mathlib

/-!
Verification of the NewsRiver client core (assets/app.js): identity-key
derivation (dedupeKey, hostPath, fuzzyTitleKey), conflict resolution
(chooseBetter, isAggregator), deduplication (dedupeItems), the persisted
first-seen sequence store (loadSeqState, saveSeqState, assignStableSeq)
and the final ordering (normalize).

Modelling conventions.  JavaScript strings are Lean Strings; optional item
fields are Option String, with JS truthiness of a string field given by
`truthy` (absent and empty are falsy).  The host environment functions
Date.parse and JSON.parse are collaborator parameters (`dp`, `jp`); the
WHATWG URL parser is modelled by `jsURL` for absolute scheme://host/path
URLs (userinfo is stripped; default-port elision, percent-decoding and
dot-segment removal are not modelled — no property below depends on them).
Character handling is ASCII (tokenisation only keeps [a-z0-9] runs, as in
the source regex).  JS Array.sort with a consistent comparator is modelled
by the stable List.mergeSort.
-/

namespace NewsRiver

/-! Basic character and list helpers. -/

def charLower (c : Char) : Char :=
  if 'A' ≤ c && c ≤ 'Z' then Char.ofNat (c.toNat + 32) else c

def isWsChar (c : Char) : Bool :=
  c = ' ' || c = '\t' || c = '\n' || c = '\r'

def isDashChar (c : Char) : Bool :=
  c = '-' || c = '–' || c = '—'

def isTokChar (c : Char) : Bool :=
  ('a' ≤ c && c ≤ 'z') || ('0' ≤ c && c ≤ '9')

def isAlphaChar (c : Char) : Bool :=
  ('a' ≤ c && c ≤ 'z') || ('A' ≤ c && c ≤ 'Z')

def isDigitChar (c : Char) : Bool :=
  '0' ≤ c && c ≤ '9'

/-- first index of a character in a list, or -1, mirroring JS String.indexOf. -/
def idxOfChar : List Char → Char → Int
  | [], _ => -1
  | c :: t, x =>
    if c = x then 0
    else
      let r := idxOfChar t x
      if r = -1 then -1 else r + 1

/-- substring test: does the needle occur contiguously inside the haystack. -/
def hasSub (needle : List Char) : List Char → Bool
  | [] => needle.isEmpty
  | c :: t => needle.isPrefixOf (c :: t) || hasSub needle t

/-! The aggregator classifier (isAggregator, app.js lines 52-55).
The regex alternation of literal substrings is modelled as a substring
search for each alternative over the lower-cased "source url" string. -/

def aggSignatures : List (List Char) :=
  ["news.google", "google news", "news.yahoo", "apple.news", "feedburner", "rss."].map
    String.data

/-! stripSourceTail (app.js lines 67-70): drop a trailing " - Source".
The JS regex is \s+[-–—]\s+[^|]+$ replaced (first match) by the empty
string; a match starting at position i needs a nonempty whitespace run,
a dash character, then a nonempty whitespace run followed by at least one
more character, with everything after the dash-side whitespace run free of
the bar character, reaching the end of the string. -/

def tailMatch (l : List Char) : Bool :=
  let w1 := l.takeWhile isWsChar
  let r1 := l.dropWhile isWsChar
  if w1.isEmpty then false
  else
    match r1 with
    | [] => false
    | d :: r2 =>
      if isDashChar d then
        let w2 := r2.takeWhile isWsChar
        let r3 := r2.dropWhile isWsChar
        !w2.isEmpty && (w2.length + r3.length ≥ 2) && r3.all (fun c => c ≠ '|')
      else false

def stripTailAux : List Char → List Char
  | [] => []
  | c :: t => if tailMatch (c :: t) then [] else c :: stripTailAux t

def stripSourceTail (title : String) : String :=
  String.mk (stripTailAux title.data)

/-! tokenize (app.js lines 72-74): lower-case, then maximal [a-z0-9]+ runs. -/

def tokensGo : List Char → List Char → List String
  | [], cur => if cur.isEmpty then [] else [String.mk cur.reverse]
  | c :: t, cur =>
    if isTokChar c then tokensGo t (c :: cur)
    else if cur.isEmpty then tokensGo t [] else String.mk cur.reverse :: tokensGo t []

def tokenize (text : String) : List String :=
  tokensGo (text.data.map charLower) []

/-- the fixed stop-word set (app.js lines 58-65). -/
def STOPWORDS : List String :=
  ["the", "a", "an", "and", "or", "but", "of", "for", "with", "without", "in", "on",
   "at", "to", "from", "by", "as", "into", "over", "under", "than", "about",
   "after", "before", "due", "will", "still", "just", "not", "is", "are", "was",
   "were", "be", "being", "been", "it", "its", "this", "that", "these", "those",
   "live", "update", "breaking", "video", "photos", "report", "reports", "says",
   "say", "said", "vs", "vs.", "game", "games", "preview", "recap", "season",
   "start", "starts", "starting", "lineup", "dead", "killed", "kills", "kill",
   "dies", "die", "injured", "injures", "injury", "los", "angeles", "new",
   "york", "la"]

/-- insertion-order deduplication, mirroring Array.from(new Set(xs)). -/
def dedupFirstAux : List String → List String → List String
  | [], _ => []
  | x :: t, seen =>
    if seen.contains x then dedupFirstAux t seen else x :: dedupFirstAux t (x :: seen)

def joinBar : List String → String
  | [] => ""
  | [x] => x
  | x :: y :: t => x ++ "|" ++ joinBar (y :: t)

/-! A stable insertion sort, used to model Array.sort with a consistent
comparator (the ECMAScript sort is stable; stable sorts with respect to
the same total preorder agree, so insertion sort is a faithful model).
insLe x places x before the first element that is not strictly before x,
so elements tying with x keep their original relative order. -/

def insLe {α : Type} (le : α → α → Bool) (x : α) : List α → List α
  | [] => [x]
  | y :: t => if le y x && !le x y then y :: insLe le x t else x :: y :: t

def insSort {α : Type} (le : α → α → Bool) : List α → List α
  | [] => []
  | x :: t => insLe le x (insSort le t)

/-- lexicographic code-point comparison of character lists, the order the
default Array.sort uses on the ASCII token strings produced by tokenize. -/
def lexLe : List Char → List Char → Bool
  | [], _ => true
  | _ :: _, [] => false
  | a :: s, b :: t => if a = b then lexLe s t else decide (a < b)

/-- lexicographic sort of strings, mirroring the default Array.sort on
the ASCII token strings produced by tokenize. -/
def sortStr (l : List String) : List String :=
  insSort (fun a b => lexLe a.data b.data) l

/-- fuzzyTitleKey (app.js lines 76-85). -/
def fuzzyTitleKey (title : String) : String :=
  let base := stripSourceTail title
  let allToks := tokenize base
  let toks := allToks.filter (fun w => w.length > 1 && !(STOPWORDS.contains w))
  if toks.isEmpty then
    let j := String.mk ((joinBar allToks).data.take 160)
    "fk:" ++ (if j = "" then "empty" else j)
  else
    "fk:" ++ joinBar ((sortStr (dedupFirstAux toks [])).take 12)

/-! URL parsing (the host collaborator behind `new URL(u)`), restricted to
absolute URLs with an explicit scheme://; produces (host, pathname). -/

def findSchemeSep : List Char → Option (List Char × List Char)
  | [] => none
  | ':' :: '/' :: '/' :: rest => some ([], rest)
  | c :: t =>
    match findSchemeSep t with
    | some (pre, post) => some (c :: pre, post)
    | none => none

def validScheme : List Char → Bool
  | [] => false
  | c :: t =>
    isAlphaChar c &&
      t.all (fun x => isAlphaChar x || isDigitChar x || x = '+' || x = '-' || x = '.')

/-- part of the authority after the last userinfo separator. -/
def afterAt (l : List Char) : List Char :=
  (l.reverse.takeWhile (fun c => c ≠ '@')).reverse

def jsURL (u : String) : Option (List Char × List Char) :=
  match findSchemeSep u.data with
  | none => none
  | some (sch, rest) =>
    if validScheme sch then
      let auth := rest.takeWhile (fun c => c ≠ '/' && c ≠ '?' && c ≠ '#')
      let after := rest.dropWhile (fun c => c ≠ '/' && c ≠ '?' && c ≠ '#')
      let host := afterAt auth
      if host.isEmpty then none
      else
        let path :=
          match after with
          | '/' :: _ => after.takeWhile (fun c => c ≠ '?' && c ≠ '#')
          | _ => ['/']
        some (host, path)
    else none

/-- the mobile-subdomain strip for the "m." case (app.js line 92),
including its guard host.indexOf(".") > 1 exactly as written. -/
def stripM (h : List Char) : List Char :=
  if ['m', '.'].isPrefixOf h && idxOfChar h '.' > 1 then h.drop 2 else h

/-- the mobile-subdomain strip for the "mobile." case (app.js line 93),
including its guard host.indexOf(".") > 6 exactly as written. -/
def stripMob (h : List Char) : List Char :=
  if ['m', 'o', 'b', 'i', 'l', 'e', '.'].isPrefixOf h && idxOfChar h '.' > 6 then h.drop 7
  else h

/-- the parse-failure fallback (app.js line 98): strip a leading http://
or https:// and truncate at the first question mark, then hash. -/
def fallbackNorm (l : List Char) : List Char :=
  let l1 :=
    if ['h', 't', 't', 'p', 's', ':', '/', '/'].isPrefixOf l then l.drop 8
    else if ['h', 't', 't', 'p', ':', '/', '/'].isPrefixOf l then l.drop 7
    else l
  (l1.takeWhile (fun c => c ≠ '?')).takeWhile (fun c => c ≠ '#')

/-- hostPath (app.js lines 88-100). -/
def hostPath (u : String) : String :=
  match jsURL u with
  | some (host0, path0) =>
    let h1 := host0.map charLower
    let h2 := stripMob (stripM h1)
    let p1 := if path0.isEmpty then ['/'] else path0
    let p2 := if p1 ≠ ['/'] && p1.getLast? = some '/' then p1.dropLast else p1
    String.mk (h2 ++ p2)
  | none => String.mk (fallbackNorm u.data)

/-! The RawItem data model (fields read by the core; absent and empty
string are both falsy in the source, captured by `truthy`). -/

structure Item where
  title : Option String
  url : Option String
  canonical_url : Option String
  canonical_id : Option String
  cluster_id : Option String
  source : Option String
  published_utc : Option String
  published : Option String
  paywall : Bool
deriving DecidableEq, Repr

def emptyItem : Item :=
  ⟨none, none, none, none, none, none, none, none, false⟩

def truthy : Option String → Bool
  | none => false
  | some s => s ≠ ""

def oget (o : Option String) : String := o.getD ""

/-- dedupeKey (app.js lines 103-114). -/
def dedupeKey (it : Item) : String :=
  if truthy it.cluster_id then "c:" ++ oget it.cluster_id
  else if truthy it.canonical_id then "i:" ++ oget it.canonical_id
  else if truthy it.canonical_url then "u:" ++ hostPath (oget it.canonical_url)
  else if truthy it.url then "u:" ++ hostPath (oget it.url)
  else fuzzyTitleKey (oget it.title)

/-- isAggregator (app.js lines 52-55). -/
def isAggregator (it : Item) : Bool :=
  let src := (oget it.source ++ " " ++ oget it.url).data.map charLower
  aggSignatures.any (fun sig => hasSub sig src)

/-! Timestamps.  chooseBetter and the sort comparator both evaluate
Date.parse(x.published_utc || x.published || 0) || 0.  The number 0 is
string-coerced by Date.parse, so the selected raw argument is a string
in every case; `dp` models Date.parse (none for NaN), and the trailing
|| 0 maps NaN to 0 while keeping negative pre-1970 values. -/

def rawTimeStr (it : Item) : String :=
  if truthy it.published_utc then oget it.published_utc
  else if truthy it.published then oget it.published
  else "0"

def parseTime (dp : String → Option Int) (it : Item) : Int :=
  (dp (rawTimeStr it)).getD 0

/-- chooseBetter (app.js lines 117-130). -/
def chooseBetter (dp : String → Option Int) (a b : Item) : Item :=
  let ta := parseTime dp a
  let tb := parseTime dp b
  if tb ≠ ta then (if tb > ta then b else a)
  else
    let aggA := isAggregator a
    let aggB := isAggregator b
    if aggA ≠ aggB then (if aggA then b else a)
    else if a.paywall ≠ b.paywall then (if a.paywall then b else a)
    else a

/-! Association lists over string keys, modelling the JS Map / plain
object used by dedupeItems and the sequence store.  mapSet mirrors
Map.set and property assignment: an existing key keeps its position and
gets the new value, a new key is appended in insertion order. -/

def alookup {β : Type} : List (String × β) → String → Option β
  | [], _ => none
  | (k, v) :: t, x => if k = x then some v else alookup t x

def mapSet {β : Type} : List (String × β) → String → β → List (String × β)
  | [], k, v => [(k, v)]
  | (k1, v1) :: t, k, v =>
    if k1 = k then (k, v) :: t else (k1, v1) :: mapSet t k v

/-- one step of the dedupeItems fold (app.js lines 135-143). -/
def dedupeStep (dp : String → Option Int) (acc : List (String × Item)) (it : Item) :
    List (String × Item) :=
  match alookup acc (dedupeKey it) with
  | none => mapSet acc (dedupeKey it) it
  | some prev => mapSet acc (dedupeKey it) (chooseBetter dp prev it)

/-- dedupeItems (app.js lines 133-145). -/
def dedupeItems (dp : String → Option Int) (items : List Item) : List Item :=
  (items.foldl (dedupeStep dp) []).map (fun p => p.2)

/-! The sequence store.  SequenceRecord as persisted by the source:
a counter and the key-to-integer map (a JS object, modelled as an
association list in insertion order). -/

structure SeqState where
  counter : Nat
  map : List (String × Nat)
deriving DecidableEq, Repr

def freshState : SeqState := ⟨0, []⟩

/-- one step of the assignStableSeq loop (app.js lines 162-170) at the
level of identity keys, carrying the touched flag. -/
def assignStep (sb : SeqState × Bool) (k : String) : SeqState × Bool :=
  match alookup sb.1.map k with
  | some _ => sb
  | none => (⟨sb.1.counter + 1, mapSet sb.1.map k (sb.1.counter + 1)⟩, true)

/-- the assignStableSeq pass over a list of identity keys: the final
state and whether any key was newly added. -/
def assignKeys (st : SeqState) (ks : List String) : SeqState × Bool :=
  ks.foldl assignStep (st, false)

/-- assignStableSeq (app.js lines 158-174) at the item level: attaches
the sequence number (the item mutation it.__seq = state.map[id]) and
returns the final state and the touched flag. -/
def assignSeqsGo (sb : SeqState × Bool) : List Item → List (Item × Nat) × SeqState × Bool
  | [] => ([], sb.1, sb.2)
  | it :: rest =>
    let sb2 := assignStep sb (dedupeKey it)
    let seq := (alookup sb2.1.map (dedupeKey it)).getD 0
    let r := assignSeqsGo sb2 rest
    ((it, seq) :: r.1, r.2)

def assignStableSeq (st : SeqState) (items : List Item) :
    List (Item × Nat) × SeqState × Bool :=
  assignSeqsGo (st, false) items

/-- the storage round trip of one assign pass (loadSeqState already done,
saveSeqState only invoked when touched; app.js lines 159 and 172): the
durable value is replaced by the new record iff the pass added a key. -/
def runCycleStore (store : Option SeqState) (ks : List String) : Option SeqState :=
  let st := store.getD freshState
  let r := assignKeys st ks
  if r.2 then some r.1 else store

/-! The final sort (normalize step C, app.js lines 345-351). -/

def jsCmp (dp : String → Option Int) (a b : Item × Nat) : Int :=
  let d : Int := (b.2 : Int) - (a.2 : Int)
  if d ≠ 0 then d else parseTime dp b.1 - parseTime dp a.1

def sortItems (dp : String → Option Int) (l : List (Item × Nat)) : List (Item × Nat) :=
  insSort (fun a b => decide (jsCmp dp a b ≤ 0)) l

/-- normalize (app.js lines 335-354), restricted to its item pipeline:
dedupe, assign stable sequence numbers, sort. -/
def normalize (dp : String → Option Int) (st : SeqState) (items : List Item) :
    List (Item × Nat) × SeqState × Bool :=
  let d := dedupeItems dp items
  let r := assignStableSeq st d
  (sortItems dp r.1, r.2)

/-! JSON values and the loadSeqState shape handling (app.js lines 29-41).
JSON.parse is the collaborator `jp` (error = the exception branch);
jsNumber models the Number() coercion on the decimal-integer subset that
matters here (a non-numeric string coerces to NaN). -/

inductive JVal where
  | null : JVal
  | bool (b : Bool) : JVal
  | num (n : Int) : JVal
  | str (s : String) : JVal
  | arr (xs : List JVal) : JVal
  | obj (fs : List (String × JVal)) : JVal

inductive JsNum where
  | nan : JsNum
  | fin (z : Int) : JsNum
deriving DecidableEq, Repr

def jsTruthy : JVal → Bool
  | .null => false
  | .bool b => b
  | .num n => n ≠ 0
  | .str s => s ≠ ""
  | .arr _ => true
  | .obj _ => true

def digitsToNat : List Char → Nat → Nat
  | [], acc => acc
  | c :: t, acc => digitsToNat t (acc * 10 + (c.toNat - '0'.toNat))

def strToNum (s : String) : JsNum :=
  let l := s.data.dropWhile isWsChar
  let l := l.reverse.dropWhile isWsChar |>.reverse
  match l with
  | [] => .fin 0
  | '-' :: d =>
    if !d.isEmpty && d.all isDigitChar then .fin (-(digitsToNat d 0 : Int)) else .nan
  | '+' :: d =>
    if !d.isEmpty && d.all isDigitChar then .fin (digitsToNat d 0 : Int) else .nan
  | d =>
    if d.all isDigitChar then .fin (digitsToNat d 0 : Int) else .nan

def jsNumber : JVal → JsNum
  | .null => .fin 0
  | .bool b => .fin (if b then 1 else 0)
  | .num n => .fin n
  | .str s => strToNum s
  | .arr [] => .fin 0
  | .arr [x] => jsNumber x
  | .arr (_ :: _ :: _) => .nan
  | .obj _ => .nan

def getFieldJ : JVal → String → Option JVal
  | .obj fs, k => alookup fs k
  | _, _ => none

/-- typeof v === "object" for a JSON value. -/
def isObjLike : JVal → Bool
  | .null => true
  | .arr _ => true
  | .obj _ => true
  | _ => false

/-- the counter component computed by loadSeqState:
Number(parsed?.counter || 0). -/
def loadCounter (parsed : JVal) : JsNum :=
  match getFieldJ parsed "counter" with
  | some v => if jsTruthy v then jsNumber v else .fin 0
  | none => .fin 0

/-- the map component computed by loadSeqState:
parsed?.map && typeof parsed.map === "object" ? parsed.map : empty. -/
def loadMap (parsed : JVal) : JVal :=
  match getFieldJ parsed "map" with
  | some v => if jsTruthy v && isObjLike v then v else .obj []
  | none => .obj []

def freshRecord : JsNum × JVal := (.fin 0, .obj [])

/-- loadSeqState (app.js lines 29-41) over the raw durable-storage value
and the JSON.parse collaborator. -/
def loadSeqState (jp : String → Except Unit JVal) (raw : Option String) : JsNum × JVal :=
  match raw with
  | none => freshRecord
  | some s =>
    if s = "" then freshRecord
    else
      match jp s with
      | .error _ => freshRecord
      | .ok parsed => (loadCounter parsed, loadMap parsed)

/-! Generic lemmas about the stable insertion sort. -/

theorem perm_insLe {α : Type} (le : α → α → Bool) (x : α) (l : List α) :
    (insLe le x l).Perm (x :: l) := by
  induction l with
  | nil => simp [insLe]
  | cons y t ih =>
    simp only [insLe]
    by_cases h : (le y x && !le x y) = true
    · rw [if_pos h]
      exact ((ih.cons y).trans (List.Perm.swap x y t))
    · rw [if_neg h]

theorem perm_insSort {α : Type} (le : α → α → Bool) (l : List α) :
    (insSort le l).Perm l := by
  induction l with
  | nil => simp [insSort]
  | cons x t ih => exact (perm_insLe le x (insSort le t)).trans (ih.cons x)

theorem pairwise_insLe {α : Type} (le : α → α → Bool)
    (htot : ∀ a b, le a b || le b a)
    (htr : ∀ a b c, le a b = true → le b c = true → le a c = true)
    (x : α) (l : List α) (h : l.Pairwise (fun a b => le a b = true)) :
    (insLe le x l).Pairwise (fun a b => le a b = true) := by
  induction l with
  | nil => simp [insLe]
  | cons y t ih =>
    simp only [insLe]
    rcases List.pairwise_cons.mp h with ⟨hy, ht⟩
    by_cases hc : (le y x && !le x y) = true
    · rw [if_pos hc]
      refine List.pairwise_cons.mpr ⟨?_, ih ht⟩
      intro z hz
      rcases List.mem_cons.mp ((perm_insLe le x t).mem_iff.mp hz) with hz2 | hz2
      · subst hz2
        exact ((Bool.and_eq_true _ _).mp hc).1
      · exact hy z hz2
    · rw [if_neg hc]
      have hxy : le x y = true := by
        by_cases h2 : le x y = true
        · exact h2
        · exfalso
          apply hc
          have h3 : le y x = true := by
            rcases (Bool.or_eq_true _ _).mp (htot y x) with h4 | h4
            · exact h4
            · exact absurd h4 h2
          simp [h3, Bool.eq_false_iff.mpr h2]
      refine List.pairwise_cons.mpr ⟨?_, h⟩
      intro z hz
      rcases List.mem_cons.mp hz with hz1 | hz1
      · subst hz1; exact hxy
      · exact htr x y z hxy (hy z hz1)

theorem pairwise_insSort {α : Type} (le : α → α → Bool)
    (htot : ∀ a b, le a b || le b a)
    (htr : ∀ a b c, le a b = true → le b c = true → le a c = true)
    (l : List α) : (insSort le l).Pairwise (fun a b => le a b = true) := by
  induction l with
  | nil => simp [insSort]
  | cons x t ih => exact pairwise_insLe le htot htr x (insSort le t) ih

/-! Lemmas about association lists (alookup, mapSet). -/

theorem alookup_mapSet_self {β : Type} (l : List (String × β)) (k : String) (v : β) :
    alookup (mapSet l k v) k = some v := by
  induction l with
  | nil => simp [mapSet, alookup]
  | cons p t ih =>
    rcases p with ⟨k1, v1⟩
    simp only [mapSet]
    by_cases h : k1 = k
    · simp [h, alookup]
    · simp [h, alookup, ih]

theorem alookup_mapSet_ne {β : Type} (l : List (String × β)) (k x : String) (v : β)
    (h : x ≠ k) : alookup (mapSet l k v) x = alookup l x := by
  have hkx : ¬ k = x := fun hh => h hh.symm
  induction l with
  | nil => simp [mapSet, alookup, hkx]
  | cons p t ih =>
    rcases p with ⟨k1, v1⟩
    simp only [mapSet]
    by_cases h1 : k1 = k
    · subst h1
      simp [alookup, hkx]
    · simp [if_neg h1, alookup, ih]

theorem mapSet_of_none {β : Type} (l : List (String × β)) (k : String) (v : β)
    (h : alookup l k = none) : mapSet l k v = l ++ [(k, v)] := by
  induction l with
  | nil => simp [mapSet]
  | cons p t ih =>
    rcases p with ⟨k1, v1⟩
    simp only [alookup] at h
    by_cases h1 : k1 = k
    · simp [h1] at h
    · simp only [mapSet, if_neg h1, List.cons_append, List.cons.injEq, true_and]
      exact ih (by simpa [h1] using h)

theorem alookup_eq_none_iff {β : Type} (l : List (String × β)) (k : String) :
    alookup l k = none ↔ k ∉ l.map Prod.fst := by
  induction l with
  | nil => simp [alookup]
  | cons p t ih =>
    rcases p with ⟨k1, v1⟩
    simp only [alookup, List.map_cons, List.mem_cons]
    by_cases h1 : k1 = k
    · simp [h1]
    · have hnk : ¬ k = k1 := fun hh => h1 hh.symm
      simp [h1, hnk, ih]

theorem alookup_mem {β : Type} (l : List (String × β)) (k : String) (v : β)
    (h : alookup l k = some v) : (k, v) ∈ l := by
  induction l with
  | nil => simp [alookup] at h
  | cons p t ih =>
    rcases p with ⟨k1, v1⟩
    simp only [alookup] at h
    by_cases h1 : k1 = k
    · simp only [if_pos h1] at h
      cases h
      simp [h1]
    · exact List.mem_cons_of_mem _ (ih (by simpa [h1] using h))

theorem alookup_some_mem_keys {β : Type} (l : List (String × β)) (k : String) (v : β)
    (h : alookup l k = some v) : k ∈ l.map Prod.fst := by
  exact List.mem_map.mpr ⟨(k, v), alookup_mem l k v h, rfl⟩

theorem alookup_isSome_iff {β : Type} (l : List (String × β)) (k : String) :
    (alookup l k).isSome = true ↔ k ∈ l.map Prod.fst := by
  constructor
  · intro h1
    rcases Option.isSome_iff_exists.mp h1 with ⟨v, hv⟩
    exact alookup_some_mem_keys l k v hv
  · intro h1
    rcases h : alookup l k with _ | v
    · exact absurd h1 ((alookup_eq_none_iff l k).mp h)
    · simp

theorem mem_mapSet {β : Type} (l : List (String × β)) (k : String) (v : β)
    (p : String × β) (h : p ∈ mapSet l k v) : p = (k, v) ∨ p ∈ l := by
  induction l with
  | nil => simpa [mapSet] using h
  | cons q t ih =>
    rcases q with ⟨k1, v1⟩
    simp only [mapSet] at h
    by_cases h1 : k1 = k
    · rw [if_pos h1] at h
      rcases List.mem_cons.mp h with h2 | h2
      · exact Or.inl h2
      · exact Or.inr (List.mem_cons_of_mem _ h2)
    · rw [if_neg h1] at h
      rcases List.mem_cons.mp h with h2 | h2
      · exact Or.inr (by simp [h2])
      · rcases ih h2 with h3 | h3
        · exact Or.inl h3
        · exact Or.inr (List.mem_cons_of_mem _ h3)

theorem fst_mapSet_of_some {β : Type} (l : List (String × β)) (k : String) (v w : β)
    (h : alookup l k = some w) : (mapSet l k v).map Prod.fst = l.map Prod.fst := by
  induction l with
  | nil => simp [alookup] at h
  | cons q t ih =>
    rcases q with ⟨k1, v1⟩
    simp only [alookup] at h
    by_cases h1 : k1 = k
    · simp [mapSet, h1]
    · simp only [mapSet, if_neg h1, List.map_cons, List.cons.injEq, true_and]
      exact ih (by simpa [h1] using h)

/-! Lemmas about the sequence-assignment pass. -/

theorem assignStep_of_some (sb : SeqState × Bool) (k : String) (v : Nat)
    (h : alookup sb.1.map k = some v) : assignStep sb k = sb := by
  simp [assignStep, h]

theorem assignStep_of_none (sb : SeqState × Bool) (k : String)
    (h : alookup sb.1.map k = none) :
    assignStep sb k =
      (⟨sb.1.counter + 1, sb.1.map ++ [(k, sb.1.counter + 1)]⟩, true) := by
  simp [assignStep, h, mapSet_of_none _ _ _ h]

theorem assignFold_counter_mono (ks : List String) :
    ∀ (sb : SeqState × Bool), sb.1.counter ≤ (ks.foldl assignStep sb).1.counter := by
  induction ks with
  | nil => intro sb; simp
  | cons k t ih =>
    intro sb
    rcases h : alookup sb.1.map k with _ | v
    · calc sb.1.counter ≤ sb.1.counter + 1 := Nat.le_succ _
        _ ≤ _ := by
          have := ih (⟨sb.1.counter + 1, sb.1.map ++ [(k, sb.1.counter + 1)]⟩, true)
          simpa [List.foldl_cons, assignStep_of_none sb k h] using this
    · simpa [List.foldl_cons, assignStep_of_some sb k v h] using ih sb

theorem assignFold_preserve (ks : List String) :
    ∀ (sb : SeqState × Bool) (x : String) (v : Nat),
      alookup sb.1.map x = some v →
      alookup (ks.foldl assignStep sb).1.map x = some v := by
  induction ks with
  | nil => intro sb x v h; simpa using h
  | cons k t ih =>
    intro sb x v h
    rcases hk : alookup sb.1.map k with _ | w
    · rw [List.foldl_cons, assignStep_of_none sb k hk]
      apply ih
      have hxk : x ≠ k := by
        intro he
        rw [he] at h
        rw [h] at hk
        cases hk
      rw [← mapSet_of_none _ _ _ hk]
      simpa [alookup_mapSet_ne _ _ _ _ hxk] using h
    · rw [List.foldl_cons, assignStep_of_some sb k w hk]
      exact ih sb x v h

theorem assignFold_bounded (ks : List String) :
    ∀ (sb : SeqState × Bool),
      (∀ p ∈ sb.1.map, p.2 ≤ sb.1.counter) →
      ∀ p ∈ (ks.foldl assignStep sb).1.map, p.2 ≤ (ks.foldl assignStep sb).1.counter := by
  induction ks with
  | nil => intro sb h; simpa using h
  | cons k t ih =>
    intro sb h
    rcases hk : alookup sb.1.map k with _ | w
    · rw [List.foldl_cons, assignStep_of_none sb k hk]
      apply ih
      intro p hp
      rcases List.mem_append.mp hp with hp1 | hp1
      · exact Nat.le_succ_of_le (h p hp1)
      · simp only [List.mem_singleton] at hp1
        subst hp1
        exact Nat.le_refl _
    · rw [List.foldl_cons, assignStep_of_some sb k w hk]
      exact ih sb h

theorem assignFold_lookup_range (ks : List String) :
    ∀ (sb : SeqState × Bool) (x : String) (v : Nat),
      alookup (ks.foldl assignStep sb).1.map x = some v →
      alookup sb.1.map x = some v ∨
        (sb.1.counter < v ∧ v ≤ (ks.foldl assignStep sb).1.counter) := by
  induction ks with
  | nil => intro sb x v h; exact Or.inl (by simpa using h)
  | cons k t ih =>
    intro sb x v h
    rcases hk : alookup sb.1.map k with _ | w
    · rw [List.foldl_cons, assignStep_of_none sb k hk] at h
      rcases ih _ x v h with h1 | h1
      · by_cases hxk : x = k
        · subst hxk
          rw [← mapSet_of_none _ _ _ hk, alookup_mapSet_self] at h1
          cases h1
          refine Or.inr ⟨Nat.lt_succ_self _, ?_⟩
          have := assignFold_counter_mono t
            (⟨sb.1.counter + 1, sb.1.map ++ [(x, sb.1.counter + 1)]⟩, true)
          simpa [List.foldl_cons, assignStep_of_none sb x hk] using this
        · rw [← mapSet_of_none _ _ _ hk, alookup_mapSet_ne _ _ _ _ hxk] at h1
          exact Or.inl h1
      · refine Or.inr ⟨Nat.lt_of_le_of_lt (Nat.le_succ _) h1.1, ?_⟩
        simpa [List.foldl_cons, assignStep_of_none sb k hk] using h1.2
    · rw [List.foldl_cons, assignStep_of_some sb k w hk] at h
      rcases ih sb x v h with h1 | h1
      · exact Or.inl h1
      · exact Or.inr ⟨h1.1, by simpa [List.foldl_cons, assignStep_of_some sb k w hk] using h1.2⟩

theorem assignFold_domain (ks : List String) :
    ∀ (sb : SeqState × Bool) (k : String), k ∈ ks →
      (alookup (ks.foldl assignStep sb).1.map k).isSome = true := by
  induction ks with
  | nil => intro sb k h; cases h
  | cons k0 t ih =>
    intro sb k h
    rcases List.mem_cons.mp h with h1 | h1
    · subst h1
      rcases hk : alookup sb.1.map k with _ | w
      · rw [List.foldl_cons, assignStep_of_none sb k hk]
        have : alookup (sb.1.map ++ [(k, sb.1.counter + 1)]) k = some (sb.1.counter + 1) := by
          rw [← mapSet_of_none _ _ _ hk]
          exact alookup_mapSet_self _ _ _
        rw [assignFold_preserve t _ k _ this]
        rfl
      · rw [List.foldl_cons, assignStep_of_some sb k w hk]
        rw [assignFold_preserve t sb k w hk]
        rfl
    · exact ih _ k h1

theorem assignFold_touched_mono (ks : List String) :
    ∀ (st : SeqState), (ks.foldl assignStep (st, true)).2 = true := by
  induction ks with
  | nil => intro st; rfl
  | cons k t ih =>
    intro st
    rcases hk : alookup st.map k with _ | w
    · rw [List.foldl_cons, assignStep_of_none (st, true) k hk]
      exact ih _
    · rw [List.foldl_cons, assignStep_of_some (st, true) k w hk]
      exact ih st

theorem assignFold_touched_iff (ks : List String) :
    ∀ (st : SeqState),
      (ks.foldl assignStep (st, false)).2 = true ↔ ∃ k ∈ ks, alookup st.map k = none := by
  induction ks with
  | nil => intro st; simp
  | cons k t ih =>
    intro st
    rcases hk : alookup st.map k with _ | w
    · rw [List.foldl_cons, assignStep_of_none (st, false) k hk]
      simp only [assignFold_touched_mono t _, true_iff]
      exact ⟨k, List.mem_cons_self k t, hk⟩
    · rw [List.foldl_cons, assignStep_of_some (st, false) k w hk]
      rw [ih st]
      constructor
      · rintro ⟨x, hx, hx2⟩
        exact ⟨x, List.mem_cons_of_mem _ hx, hx2⟩
      · rintro ⟨x, hx, hx2⟩
        rcases List.mem_cons.mp hx with hx1 | hx1
        · subst hx1
          rw [hx2] at hk
          cases hk
        · exact ⟨x, hx1, hx2⟩

theorem assignFold_absent (ks : List String) :
    ∀ (sb : SeqState × Bool) (k : String), k ∉ ks →
      alookup (ks.foldl assignStep sb).1.map k = alookup sb.1.map k := by
  induction ks with
  | nil => intro sb k _; rfl
  | cons k0 t ih =>
    intro sb k h
    have hk0 : k ≠ k0 := fun he => h (he ▸ List.mem_cons_self k0 t)
    have ht : k ∉ t := fun he => h (List.mem_cons_of_mem _ he)
    rcases hk : alookup sb.1.map k0 with _ | w
    · rw [List.foldl_cons, assignStep_of_none sb k0 hk, ih _ k ht]
      simp only
      rw [← mapSet_of_none _ _ _ hk, alookup_mapSet_ne _ _ _ _ hk0]
    · rw [List.foldl_cons, assignStep_of_some sb k0 w hk]
      exact ih sb k ht

theorem assignFold_idem (ks : List String) :
    ∀ (sb : SeqState × Bool),
      (∀ k ∈ ks, (alookup sb.1.map k).isSome = true) →
      ks.foldl assignStep sb = sb := by
  induction ks with
  | nil => intro sb _; rfl
  | cons k t ih =>
    intro sb h
    rcases Option.isSome_iff_exists.mp (h k (List.mem_cons_self k t)) with ⟨w, hw⟩
    rw [List.foldl_cons, assignStep_of_some sb k w hw]
    exact ih sb (fun x hx => h x (List.mem_cons_of_mem _ hx))

theorem assignFold_keys_nodup (ks : List String) :
    ∀ (sb : SeqState × Bool),
      (sb.1.map.map Prod.fst).Nodup →
      ((ks.foldl assignStep sb).1.map.map Prod.fst).Nodup := by
  induction ks with
  | nil => intro sb h; simpa using h
  | cons k t ih =>
    intro sb h
    rcases hk : alookup sb.1.map k with _ | w
    · rw [List.foldl_cons, assignStep_of_none sb k hk]
      apply ih
      simp only [List.map_append, List.map_cons, List.map_nil]
      rw [List.nodup_append]
      refine ⟨h, List.nodup_singleton _, ?_⟩
      intro x hx hx2
      simp only [List.mem_singleton] at hx2
      subst hx2
      exact (alookup_eq_none_iff _ _).mp hk hx
    · rw [List.foldl_cons, assignStep_of_some sb k w hk]
      exact ih sb h

theorem assignFold_vals_nodup (ks : List String) :
    ∀ (sb : SeqState × Bool),
      (∀ p ∈ sb.1.map, p.2 ≤ sb.1.counter) →
      (sb.1.map.map Prod.snd).Nodup →
      ((ks.foldl assignStep sb).1.map.map Prod.snd).Nodup := by
  induction ks with
  | nil => intro sb _ h; simpa using h
  | cons k t ih =>
    intro sb hb h
    rcases hk : alookup sb.1.map k with _ | w
    · rw [List.foldl_cons, assignStep_of_none sb k hk]
      apply ih
      · intro p hp
        rcases List.mem_append.mp hp with hp1 | hp1
        · exact Nat.le_succ_of_le (hb p hp1)
        · simp only [List.mem_singleton] at hp1
          subst hp1
          exact Nat.le_refl _
      · simp only [List.map_append, List.map_cons, List.map_nil]
        rw [List.nodup_append]
        refine ⟨h, List.nodup_singleton _, ?_⟩
        intro x hx hx2
        simp only [List.mem_singleton] at hx2
        subst hx2
        rcases List.mem_map.mp hx with ⟨p, hp, hp2⟩
        have := hb p hp
        omega
    · rw [List.foldl_cons, assignStep_of_some sb k w hk]
      exact ih sb hb h

theorem assignFold_new_key (ks : List String) (st : SeqState) (k : String)
    (hmem : k ∈ ks) (hnew : alookup st.map k = none) :
    ∃ v, alookup (assignKeys st ks).1.map k = some v ∧
      st.counter < v ∧ v ≤ (assignKeys st ks).1.counter := by
  have hd := assignFold_domain ks (st, false) k hmem
  rcases Option.isSome_iff_exists.mp hd with ⟨v, hv⟩
  rcases assignFold_lookup_range ks (st, false) k v hv with h1 | h1
  · rw [hnew] at h1
    cases h1
  · exact ⟨v, hv, h1.1, h1.2⟩

theorem assignFold_increasing (st : SeqState) (pre mid post : List String) (ka kb : String)
    (hnd : (pre ++ ka :: (mid ++ kb :: post)).Nodup)
    (ha : alookup st.map ka = none) (hb : alookup st.map kb = none) :
    ∃ va vb,
      alookup (assignKeys st (pre ++ ka :: (mid ++ kb :: post))).1.map ka = some va ∧
      alookup (assignKeys st (pre ++ ka :: (mid ++ kb :: post))).1.map kb = some vb ∧
      va < vb := by
  rcases List.nodup_append.mp hnd with ⟨hnp, hnr, hdisj⟩
  rcases List.nodup_cons.mp hnr with ⟨hka, hnr2⟩
  have hkapre : ka ∉ pre := fun hm => hdisj hm (List.mem_cons_self _ _)
  have hkbmem : kb ∈ ka :: (mid ++ kb :: post) :=
    List.mem_cons_of_mem _ (List.mem_append.mpr (Or.inr (List.mem_cons_self _ _)))
  have hkbpre : kb ∉ pre := fun hm => hdisj hm hkbmem
  have hkab : kb ≠ ka := by
    intro he
    subst he
    exact hka (List.mem_append.mpr (Or.inr (List.mem_cons_self _ _)))
  rcases List.nodup_append.mp hnr2 with ⟨_, _, hdisj2⟩
  have hkbmid : kb ∉ mid := fun hm => hdisj2 hm (List.mem_cons_self _ _)
  set sb1 := pre.foldl assignStep (st, false) with hsb1
  have ha1 : alookup sb1.1.map ka = none := by
    rw [hsb1, assignFold_absent pre (st, false) ka hkapre]
    exact ha
  have hb1 : alookup sb1.1.map kb = none := by
    rw [hsb1, assignFold_absent pre (st, false) kb hkbpre]
    exact hb
  set va := sb1.1.counter + 1 with hva
  set sb2 : SeqState × Bool := (⟨va, sb1.1.map ++ [(ka, va)]⟩, true) with hsb2
  have hstep : assignStep sb1 ka = sb2 := assignStep_of_none sb1 ka ha1
  have ha2 : alookup sb2.1.map ka = some va := by
    rw [hsb2]
    show alookup (sb1.1.map ++ [(ka, va)]) ka = some va
    rw [← mapSet_of_none _ _ _ ha1]
    exact alookup_mapSet_self _ _ _
  have hb2 : alookup sb2.1.map kb = none := by
    show alookup (sb1.1.map ++ [(ka, va)]) kb = none
    rw [← mapSet_of_none _ _ _ ha1, alookup_mapSet_ne _ _ _ _ hkab]
    exact hb1
  set sb3 := mid.foldl assignStep sb2 with hsb3
  have hb3 : alookup sb3.1.map kb = none := by
    rw [hsb3, assignFold_absent mid sb2 kb hkbmid]
    exact hb2
  have ha3 : alookup sb3.1.map ka = some va :=
    assignFold_preserve mid sb2 ka va ha2
  have hc3 : va ≤ sb3.1.counter := by
    have := assignFold_counter_mono mid sb2
    simpa [hsb2] using this
  set vb := sb3.1.counter + 1 with hvb
  set sb4 : SeqState × Bool := (⟨vb, sb3.1.map ++ [(kb, vb)]⟩, true) with hsb4
  have hstep2 : assignStep sb3 kb = sb4 := assignStep_of_none sb3 kb hb3
  have ha4 : alookup sb4.1.map ka = some va := by
    show alookup (sb3.1.map ++ [(kb, vb)]) ka = some va
    rw [← mapSet_of_none _ _ _ hb3, alookup_mapSet_ne _ _ _ _ (fun he => hkab he.symm)]
    exact ha3
  have hb4 : alookup sb4.1.map kb = some vb := by
    show alookup (sb3.1.map ++ [(kb, vb)]) kb = some vb
    rw [← mapSet_of_none _ _ _ hb3]
    exact alookup_mapSet_self _ _ _
  have hfold : assignKeys st (pre ++ ka :: (mid ++ kb :: post)) = post.foldl assignStep sb4 := by
    show (pre ++ ka :: (mid ++ kb :: post)).foldl assignStep (st, false) = post.foldl assignStep sb4
    rw [List.foldl_append, ← hsb1, List.foldl_cons, hstep, List.foldl_append, ← hsb3,
      List.foldl_cons, hstep2]
  refine ⟨va, vb, ?_, ?_, ?_⟩
  · rw [hfold]
    exact assignFold_preserve post sb4 ka va ha4
  · rw [hfold]
    exact assignFold_preserve post sb4 kb vb hb4
  · omega

/-! Lemmas about the dedupeItems fold. -/

theorem chooseBetter_or (dp : String → Option Int) (a b : Item) :
    chooseBetter dp a b = a ∨ chooseBetter dp a b = b := by
  unfold chooseBetter
  by_cases h1 : parseTime dp b ≠ parseTime dp a
  · simp only [if_pos h1]
    by_cases h2 : parseTime dp b > parseTime dp a
    · simp [h2]
    · simp [h2]
  · simp only [if_neg h1]
    by_cases h2 : isAggregator a ≠ isAggregator b
    · simp only [if_pos h2]
      by_cases h3 : isAggregator a <;> simp [h3]
    · simp only [if_neg h2]
      by_cases h3 : a.paywall ≠ b.paywall
      · simp only [if_pos h3]
        by_cases h4 : a.paywall <;> simp [h4]
      · simp [h3]

/-- the running association list of dedupeItems keeps, under every key,
an item whose dedupeKey is that key. -/
def KeysOk (acc : List (String × Item)) : Prop :=
  ∀ p ∈ acc, dedupeKey p.2 = p.1

theorem dedupeStep_of_none (dp : String → Option Int) (acc : List (String × Item))
    (it : Item) (h : alookup acc (dedupeKey it) = none) :
    dedupeStep dp acc it = mapSet acc (dedupeKey it) it := by
  unfold dedupeStep
  rw [h]

theorem dedupeStep_of_some (dp : String → Option Int) (acc : List (String × Item))
    (it prev : Item) (h : alookup acc (dedupeKey it) = some prev) :
    dedupeStep dp acc it = mapSet acc (dedupeKey it) (chooseBetter dp prev it) := by
  unfold dedupeStep
  rw [h]

theorem keysOk_dedupeStep (dp : String → Option Int) (acc : List (String × Item))
    (it : Item) (h : KeysOk acc) : KeysOk (dedupeStep dp acc it) := by
  intro p hp
  rcases hl : alookup acc (dedupeKey it) with _ | prev
  · rw [dedupeStep_of_none dp acc it hl] at hp
    rcases mem_mapSet _ _ _ _ hp with h1 | h1
    · subst h1
      rfl
    · exact h p h1
  · rw [dedupeStep_of_some dp acc it prev hl] at hp
    rcases mem_mapSet _ _ _ _ hp with h1 | h1
    · subst h1
      show dedupeKey (chooseBetter dp prev it) = dedupeKey it
      have hprev : dedupeKey prev = dedupeKey it := h _ (alookup_mem _ _ _ hl)
      rcases chooseBetter_or dp prev it with h2 | h2
      · rw [h2, hprev]
      · rw [h2]
    · exact h p h1

theorem keysOk_dedupeFold (dp : String → Option Int) (items : List Item) :
    ∀ (acc : List (String × Item)), KeysOk acc →
      KeysOk (items.foldl (dedupeStep dp) acc) := by
  induction items with
  | nil => intro acc h; simpa using h
  | cons it t ih =>
    intro acc h
    rw [List.foldl_cons]
    exact ih _ (keysOk_dedupeStep dp acc it h)

/-- the key-order fold: append a key if not already present (the key
evolution of both dedupeItems and Array.from(new Set(...))). -/
def insKey (ks : List String) (k : String) : List String :=
  if ks.contains k then ks else ks ++ [k]

def firstOccs (l : List String) : List String := l.foldl insKey []

theorem insKey_pos (ks : List String) (k : String) (h : ks.contains k = true) :
    insKey ks k = ks := by
  unfold insKey
  rw [if_pos h]

theorem insKey_neg (ks : List String) (k : String) (h : ¬ ks.contains k = true) :
    insKey ks k = ks ++ [k] := by
  unfold insKey
  rw [if_neg h]

theorem fst_dedupeStep (dp : String → Option Int) (acc : List (String × Item)) (it : Item) :
    (dedupeStep dp acc it).map Prod.fst = insKey (acc.map Prod.fst) (dedupeKey it) := by
  rcases hl : alookup acc (dedupeKey it) with _ | prev
  · have hmem : dedupeKey it ∉ acc.map Prod.fst := (alookup_eq_none_iff _ _).mp hl
    rw [dedupeStep_of_none dp acc it hl, insKey_neg _ _ (by simpa using hmem)]
    rw [mapSet_of_none _ _ _ hl]
    simp
  · have hmem : dedupeKey it ∈ acc.map Prod.fst := alookup_some_mem_keys _ _ _ hl
    rw [dedupeStep_of_some dp acc it prev hl, insKey_pos _ _ (by simpa using hmem)]
    exact fst_mapSet_of_some _ _ _ _ hl

theorem fst_dedupeFold (dp : String → Option Int) (items : List Item) :
    ∀ (acc : List (String × Item)),
      (items.foldl (dedupeStep dp) acc).map Prod.fst =
        (items.map dedupeKey).foldl insKey (acc.map Prod.fst) := by
  induction items with
  | nil => intro acc; rfl
  | cons it t ih =>
    intro acc
    rw [List.foldl_cons, List.map_cons, List.foldl_cons, ← fst_dedupeStep dp acc it]
    exact ih _

theorem mem_foldl_insKey (l : List String) :
    ∀ (acc : List String) (x : String),
      x ∈ l.foldl insKey acc ↔ x ∈ acc ∨ x ∈ l := by
  induction l with
  | nil => intro acc x; simp
  | cons k t ih =>
    intro acc x
    rw [List.foldl_cons]
    by_cases h : acc.contains k = true
    · rw [insKey_pos _ _ h, ih]
      have hk : k ∈ acc := by simpa using h
      constructor
      · rintro (h1 | h1)
        · exact Or.inl h1
        · exact Or.inr (List.mem_cons_of_mem _ h1)
      · rintro (h1 | h1)
        · exact Or.inl h1
        · rcases List.mem_cons.mp h1 with h2 | h2
          · subst h2; exact Or.inl hk
          · exact Or.inr h2
    · rw [insKey_neg _ _ h, ih]
      simp only [List.mem_append, List.mem_singleton, List.mem_cons]
      tauto

theorem nodup_foldl_insKey (l : List String) :
    ∀ (acc : List String), acc.Nodup → (l.foldl insKey acc).Nodup := by
  induction l with
  | nil => intro acc h; simpa using h
  | cons k t ih =>
    intro acc h
    rw [List.foldl_cons]
    by_cases hc : acc.contains k = true
    · rw [insKey_pos _ _ hc]
      exact ih _ h
    · rw [insKey_neg _ _ hc]
      apply ih
      rw [List.nodup_append]
      refine ⟨h, List.nodup_singleton _, ?_⟩
      intro x hx hx2
      simp only [List.mem_singleton] at hx2
      have hkc : k ∉ acc := by simpa using hc
      rw [hx2] at hx
      exact hkc hx

theorem dedupeItems_keys (dp : String → Option Int) (items : List Item) :
    (dedupeItems dp items).map dedupeKey = firstOccs (items.map dedupeKey) := by
  unfold dedupeItems firstOccs
  have hko : KeysOk (items.foldl (dedupeStep dp) []) :=
    keysOk_dedupeFold dp items [] (by intro p hp; cases hp)
  have h1 : (items.foldl (dedupeStep dp) []).map Prod.fst =
      (items.map dedupeKey).foldl insKey [] := by
    simpa using fst_dedupeFold dp items []
  rw [← h1, List.map_map]
  exact List.map_congr_left (fun p hp => hko p hp)

theorem dedupeItems_keys_nodup (dp : String → Option Int) (items : List Item) :
    ((dedupeItems dp items).map dedupeKey).Nodup := by
  rw [dedupeItems_keys]
  exact nodup_foldl_insKey _ [] List.nodup_nil

theorem mem_dedupeItems_keys (dp : String → Option Int) (items : List Item) (K : String) :
    K ∈ (dedupeItems dp items).map dedupeKey ↔ K ∈ items.map dedupeKey := by
  rw [dedupeItems_keys]
  unfold firstOccs
  rw [mem_foldl_insKey]
  simp

theorem dedupeFold_keys_nodup (dp : String → Option Int) (items : List Item) :
    ((items.foldl (dedupeStep dp) []).map Prod.fst).Nodup := by
  rw [fst_dedupeFold dp items []]
  exact nodup_foldl_insKey _ _ List.nodup_nil

theorem countP_keys_of_nodup (K : String) (ks : List String)
    (hnd : ks.Nodup) (hmem : K ∈ ks) :
    ks.countP (fun k => decide (k = K)) = 1 := by
  induction ks with
  | nil => cases hmem
  | cons k t ih =>
    rcases List.nodup_cons.mp hnd with ⟨hk, ht⟩
    rw [List.countP_cons]
    rcases List.mem_cons.mp hmem with h1 | h1
    · have hz : t.countP (fun x => decide (x = K)) = 0 := by
        rw [List.countP_eq_zero]
        intro a ha
        simp only [decide_eq_true_eq]
        intro he
        rw [he, h1] at ha
        exact hk ha
      rw [hz]
      simp [h1]
    · have hkK : ¬ (k = K) := by
        intro he
        rw [he] at hk
        exact hk h1
      rw [ih ht h1]
      simp [hkK]

theorem dedupeItems_count_one (dp : String → Option Int) (items : List Item) (K : String)
    (hK : K ∈ items.map dedupeKey) :
    (dedupeItems dp items).countP (fun o => decide (dedupeKey o = K)) = 1 := by
  unfold dedupeItems
  set acc := items.foldl (dedupeStep dp) [] with hacc
  have hko : KeysOk acc := keysOk_dedupeFold dp items [] (by intro p hp; cases hp)
  have hnd : (acc.map Prod.fst).Nodup := dedupeFold_keys_nodup dp items
  have hmem : K ∈ acc.map Prod.fst := by
    rw [hacc, fst_dedupeFold dp items [], mem_foldl_insKey]
    exact Or.inr hK
  rw [List.countP_map]
  have h2 : acc.countP ((fun o => decide (dedupeKey o = K)) ∘ (fun p => p.2)) =
      acc.countP (fun p => decide (p.1 = K)) := by
    apply List.countP_congr
    intro p hp
    simp only [Function.comp_apply, decide_eq_true_eq]
    rw [hko p hp]
  rw [h2]
  have h3 : acc.countP (fun p => decide (p.1 = K)) =
      (acc.map Prod.fst).countP (fun k => decide (k = K)) := by
    rw [List.countP_map]
    rfl
  rw [h3]
  exact countP_keys_of_nodup K _ hnd hmem

/-! Lemmas about the sort comparator. -/

theorem jsCmp_le_iff (dp : String → Option Int) (a b : Item × Nat) :
    jsCmp dp a b ≤ 0 ↔
      (b.2 < a.2 ∨ (b.2 = a.2 ∧ parseTime dp b.1 ≤ parseTime dp a.1)) := by
  unfold jsCmp
  by_cases h : ((b.2 : Int) - (a.2 : Int)) ≠ 0
  · rw [if_pos h]
    constructor
    · intro h1
      left
      omega
    · intro h1
      rcases h1 with h1 | h1
      · omega
      · omega
  · rw [if_neg h]
    constructor
    · intro h1
      right
      constructor
      · omega
      · omega
    · intro h1
      rcases h1 with h1 | h1
      · omega
      · omega

theorem jsCmp_total (dp : String → Option Int) (a b : Item × Nat) :
    (decide (jsCmp dp a b ≤ 0) || decide (jsCmp dp b a ≤ 0)) = true := by
  by_cases h : jsCmp dp a b ≤ 0
  · simp [h]
  · have h2 : jsCmp dp b a ≤ 0 := by
      rw [jsCmp_le_iff] at h ⊢
      omega
    simp [h2]

theorem jsCmp_trans (dp : String → Option Int) (a b c : Item × Nat)
    (h1 : decide (jsCmp dp a b ≤ 0) = true) (h2 : decide (jsCmp dp b c ≤ 0) = true) :
    decide (jsCmp dp a c ≤ 0) = true := by
  simp only [decide_eq_true_eq] at h1 h2 ⊢
  rw [jsCmp_le_iff] at h1 h2 ⊢
  rcases h1 with h1 | h1 <;> rcases h2 with h2 | h2
  · exact Or.inl (Nat.lt_trans h2 h1)
  · exact Or.inl (h2.1 ▸ h1)
  · exact Or.inl (h1.1 ▸ h2)
  · exact Or.inr ⟨h1.1 ▸ h2.1, le_trans h2.2 h1.2⟩

theorem sortItems_perm (dp : String → Option Int) (l : List (Item × Nat)) :
    (sortItems dp l).Perm l :=
  perm_insSort _ l

theorem sortItems_pairwise (dp : String → Option Int) (l : List (Item × Nat)) :
    (sortItems dp l).Pairwise
      (fun a b => b.2 < a.2 ∨ (b.2 = a.2 ∧ parseTime dp b.1 ≤ parseTime dp a.1)) := by
  have h := pairwise_insSort (fun a b => decide (jsCmp dp a b ≤ 0))
    (jsCmp_total dp) (jsCmp_trans dp) l
  refine h.imp ?_
  intro a b hab
  rw [← jsCmp_le_iff dp a b]
  simpa using hab

theorem pairwise_of_split {α : Type} (R : α → α → Prop) (pre mid post : List α) (x y : α)
    (h : (pre ++ x :: (mid ++ y :: post)).Pairwise R) : R x y := by
  rcases List.pairwise_append.mp h with ⟨_, h2, _⟩
  rcases List.pairwise_cons.mp h2 with ⟨hx, _⟩
  exact hx y (List.mem_append.mpr (Or.inr (List.mem_cons_self _ _)))

/-! The bridge between the item-level assignStableSeq and the key-level
assignKeys fold. -/

theorem assignSeqsGo_state (items : List Item) :
    ∀ (sb : SeqState × Bool),
      (assignSeqsGo sb items).2 = (items.map dedupeKey).foldl assignStep sb := by
  induction items with
  | nil => intro sb; rfl
  | cons it t ih =>
    intro sb
    simp only [assignSeqsGo, List.map_cons, List.foldl_cons]
    exact ih _

theorem assignStableSeq_state (st : SeqState) (items : List Item) :
    (assignStableSeq st items).2 = assignKeys st (items.map dedupeKey) :=
  assignSeqsGo_state items (st, false)

/-! Concrete items used in the claim statements. -/

def itemBothC1 : Item :=
  { emptyItem with cluster_id := some "X", canonical_url := some "https://a.com/b" }

def itemOnlyCluster : Item := { emptyItem with cluster_id := some "X" }

def itemOnlyCanon : Item := { emptyItem with canonical_url := some "https://a.com/b" }

def gNewsItem : Item :=
  { emptyItem with
    cluster_id := some "k1",
    published_utc := some "2024-01-01T00:00:00Z",
    source := some "Google News" }

def reutersItem : Item :=
  { emptyItem with
    cluster_id := some "k1",
    published_utc := some "2024-01-01T00:00:00Z",
    source := some "Reuters" }

theorem dedupeKey_cluster (a : Item) (X : String) (hX : X ≠ "") (h : a.cluster_id = some X) :
    dedupeKey a = "c:" ++ X := by
  unfold dedupeKey
  rw [h]
  have ht : truthy (some X) = true := by simpa [truthy] using hX
  rw [if_pos ht]
  rfl

/-- C1: dedupeKey derives the identity key from the first available signal
in strict priority order (cluster_id, then canonical_id, then normalized
canonical_url, then normalized url, then the fuzzy title signature); an
item with both cluster_id X and canonical_url https://a.com/b keys equal
to an item with only cluster_id X and different from an item with only
that canonical_url. -/
theorem claim_C1 :
    (∀ it : Item, truthy it.cluster_id = true →
      dedupeKey it = "c:" ++ oget it.cluster_id)
  ∧ (∀ it : Item, truthy it.cluster_id = false → truthy it.canonical_id = true →
      dedupeKey it = "i:" ++ oget it.canonical_id)
  ∧ (∀ it : Item, truthy it.cluster_id = false → truthy it.canonical_id = false →
      truthy it.canonical_url = true →
      dedupeKey it = "u:" ++ hostPath (oget it.canonical_url))
  ∧ (∀ it : Item, truthy it.cluster_id = false → truthy it.canonical_id = false →
      truthy it.canonical_url = false → truthy it.url = true →
      dedupeKey it = "u:" ++ hostPath (oget it.url))
  ∧ (∀ it : Item, truthy it.cluster_id = false → truthy it.canonical_id = false →
      truthy it.canonical_url = false → truthy it.url = false →
      dedupeKey it = fuzzyTitleKey (oget it.title))
  ∧ (∀ a b : Item, a.cluster_id = some "X" → b.cluster_id = some "X" →
      dedupeKey a = dedupeKey b)
  ∧ (∀ a : Item, a.cluster_id = some "X" → dedupeKey a ≠ dedupeKey itemOnlyCanon)
  ∧ dedupeKey itemBothC1 = dedupeKey itemOnlyCluster
  ∧ dedupeKey itemBothC1 ≠ dedupeKey itemOnlyCanon := by
  refine ⟨?_, ?_, ?_, ?_, ?_, ?_, ?_, ?_, ?_⟩
  · intro it h
    unfold dedupeKey
    rw [if_pos h]
  · intro it h1 h2
    unfold dedupeKey
    rw [if_neg (by simp [h1]), if_pos h2]
  · intro it h1 h2 h3
    unfold dedupeKey
    rw [if_neg (by simp [h1]), if_neg (by simp [h2]), if_pos h3]
  · intro it h1 h2 h3 h4
    unfold dedupeKey
    rw [if_neg (by simp [h1]), if_neg (by simp [h2]), if_neg (by simp [h3]), if_pos h4]
  · intro it h1 h2 h3 h4
    unfold dedupeKey
    rw [if_neg (by simp [h1]), if_neg (by simp [h2]), if_neg (by simp [h3]),
      if_neg (by simp [h4])]
  · intro a b ha hb
    rw [dedupeKey_cluster a "X" (by decide) ha, dedupeKey_cluster b "X" (by decide) hb]
  · intro a ha
    rw [dedupeKey_cluster a "X" (by decide) ha]
    decide
  · decide
  · decide

theorem claim_C1_witness :
    truthy itemBothC1.cluster_id = true ∧
    dedupeKey itemBothC1 = "c:" ++ oget itemBothC1.cluster_id :=
  ⟨by decide, claim_C1.1 itemBothC1 (by decide)⟩

/-- C2 counterexample: the spec example fails on the code; the mobile
subdomain is not stripped (the indexOf guard is never satisfied) and the
pathname case is preserved, so the two URLs normalize differently. -/
theorem claim_C2_cex :
    hostPath "https://M.Example.com/Story/" = "m.example.com/Story"
  ∧ hostPath "https://example.com/story" = "example.com/story"
  ∧ hostPath "https://M.Example.com/Story/" ≠ hostPath "https://example.com/story" := by
  refine ⟨by decide, by decide, by decide⟩

/-- C2 (amended): hostPath parses the URL, lower-cases the host, keeps
host plus pathname with the pathname case preserved, strips one trailing
slash off a non-root path, discards scheme, query and fragment, and falls
back to scheme-stripping and truncation on parse failure; but the leading
"m." and "mobile." labels are never stripped, because the guards
host.indexOf(".") > 1 and > 6 cannot hold when the respective label
starts the host. -/
theorem claim_C2 :
    (∀ l : List Char, stripM ('m' :: '.' :: l) = 'm' :: '.' :: l)
  ∧ (∀ l : List Char,
      stripMob ('m' :: 'o' :: 'b' :: 'i' :: 'l' :: 'e' :: '.' :: l) =
        'm' :: 'o' :: 'b' :: 'i' :: 'l' :: 'e' :: '.' :: l)
  ∧ hostPath "https://M.Example.com/Story/" = "m.example.com/Story"
  ∧ hostPath "https://mobile.site.org/a/b/" = "mobile.site.org/a/b"
  ∧ hostPath "https://news.example.com/path?q=1#frag" = "news.example.com/path"
  ∧ hostPath "https://Example.com/" = "example.com/"
  ∧ hostPath "https://example.com/story/" = "example.com/story"
  ∧ hostPath "notaurl?x#y" = "notaurl"
  ∧ hostPath "http://example.com/a" = "example.com/a" := by
  refine ⟨?_, ?_, by decide, by decide, by decide, by decide, by decide, by decide, by decide⟩
  · intro l
    have h1 : idxOfChar ('m' :: '.' :: l) '.' = 1 := by
      simp [idxOfChar]
    unfold stripM
    rw [h1]
    simp
  · intro l
    have h1 : idxOfChar ('m' :: 'o' :: 'b' :: 'i' :: 'l' :: 'e' :: '.' :: l) '.' = 6 := by
      simp [idxOfChar]
    unfold stripMob
    rw [h1]
    simp

theorem claim_C2_witness :
    stripM ('m' :: '.' :: "example.com".data) = 'm' :: '.' :: "example.com".data :=
  claim_C2.1 "example.com".data

/-- C3: chooseBetter picks the strictly newer item outright; on a
timestamp tie the non-aggregator side when exactly one side matches the
aggregator signatures; on a further tie the non-paywalled item; otherwise
the first argument.  A missing or unparsable timestamp is treated as
epoch 0 (assuming the engine does not parse the coerced string "0").
With identical published_utc and the same cluster_id, Reuters beats
Google News in either argument order. -/
theorem claim_C3 :
    (∀ (dp : String → Option Int) (a b : Item), dedupeKey a = dedupeKey b →
        (parseTime dp b > parseTime dp a → chooseBetter dp a b = b)
      ∧ (parseTime dp a > parseTime dp b → chooseBetter dp a b = a)
      ∧ (parseTime dp a = parseTime dp b → isAggregator a = true → isAggregator b = false →
          chooseBetter dp a b = b)
      ∧ (parseTime dp a = parseTime dp b → isAggregator a = false → isAggregator b = true →
          chooseBetter dp a b = a)
      ∧ (parseTime dp a = parseTime dp b → isAggregator a = isAggregator b →
          a.paywall = true → b.paywall = false → chooseBetter dp a b = b)
      ∧ (parseTime dp a = parseTime dp b → isAggregator a = isAggregator b →
          a.paywall = false → b.paywall = true → chooseBetter dp a b = a)
      ∧ (parseTime dp a = parseTime dp b → isAggregator a = isAggregator b →
          a.paywall = b.paywall → chooseBetter dp a b = a))
  ∧ (∀ (dp : String → Option Int) (it : Item), truthy it.published_utc = false →
      truthy it.published = false → dp "0" = none → parseTime dp it = 0)
  ∧ (∀ (dp : String → Option Int) (it : Item) (s : String), it.published_utc = some s →
      s ≠ "" → dp s = none → parseTime dp it = 0)
  ∧ (∀ dp : String → Option Int,
      chooseBetter dp gNewsItem reutersItem = reutersItem ∧
      chooseBetter dp reutersItem gNewsItem = reutersItem) := by
  refine ⟨?_, ?_, ?_, ?_⟩
  · intro dp a b _
    refine ⟨?_, ?_, ?_, ?_, ?_, ?_, ?_⟩
    · intro h
      simp [chooseBetter, ne_of_gt h, h]
    · intro h
      have hne : parseTime dp b ≠ parseTime dp a := ne_of_lt h
      simp [chooseBetter, hne, not_lt_of_gt h]
    · intro ht ha hb
      simp [chooseBetter, ht, ha, hb]
    · intro ht ha hb
      simp [chooseBetter, ht, ha, hb]
    · intro ht ha hp1 hp2
      simp [chooseBetter, ht, ha, hp1, hp2]
    · intro ht ha hp1 hp2
      simp [chooseBetter, ht, ha, hp1, hp2]
    · intro ht ha hp
      simp [chooseBetter, ht, ha, hp]
  · intro dp it h1 h2 h0
    unfold parseTime rawTimeStr
    rw [if_neg (by simp [h1]), if_neg (by simp [h2]), h0]
    rfl
  · intro dp it s hs hne h0
    unfold parseTime rawTimeStr
    have ht : truthy it.published_utc = true := by
      rw [hs]
      simpa [truthy] using hne
    rw [if_pos ht]
    have : oget it.published_utc = s := by rw [hs]; rfl
    rw [this, h0]
    rfl
  · intro dp
    have ht : parseTime dp gNewsItem = parseTime dp reutersItem := rfl
    have hg : isAggregator gNewsItem = true := by decide
    have hr : isAggregator reutersItem = false := by decide
    constructor
    · simp [chooseBetter, ht, hg, hr]
    · simp [chooseBetter, ht, hg, hr]

theorem claim_C3_witness :
    dedupeKey gNewsItem = dedupeKey reutersItem ∧
    parseTime (fun _ => none) gNewsItem = parseTime (fun _ => none) reutersItem ∧
    isAggregator gNewsItem = true ∧ isAggregator reutersItem = false ∧
    chooseBetter (fun _ => none) gNewsItem reutersItem = reutersItem :=
  ⟨by decide, by decide, by decide, by decide,
    ((claim_C3.1 (fun _ => none) gNewsItem reutersItem (by decide)).2.2.1
      (by decide) (by decide) (by decide))⟩

/-! The SequenceRecord invariant. -/

def Bounded (st : SeqState) : Prop := ∀ p ∈ st.map, p.2 ≤ st.counter

def WFSeq (st : SeqState) : Prop :=
  Bounded st ∧ (st.map.map Prod.fst).Nodup ∧ (st.map.map Prod.snd).Nodup

instance (st : SeqState) : Decidable (Bounded st) :=
  inferInstanceAs (Decidable (∀ p ∈ st.map, p.2 ≤ st.counter))

instance (st : SeqState) : Decidable (WFSeq st) :=
  inferInstanceAs
    (Decidable (Bounded st ∧ (st.map.map Prod.fst).Nodup ∧ (st.map.map Prod.snd).Nodup))

/-- C4: an assign pass preserves the SequenceRecord invariant (every
stored integer is at most the counter, keys and assigned integers stay
unique), never changes an existing assignment, never decreases the
counter, and a second pass over the same keys is the identity (so
repeated load, assign, save cycles are idempotent). -/
theorem claim_C4 (st : SeqState) (ks : List String) (h : WFSeq st) :
    WFSeq (assignKeys st ks).1
  ∧ (∀ k v, alookup st.map k = some v → alookup (assignKeys st ks).1.map k = some v)
  ∧ st.counter ≤ (assignKeys st ks).1.counter
  ∧ assignKeys (assignKeys st ks).1 ks = ((assignKeys st ks).1, false) := by
  rcases h with ⟨hb, hk, hv⟩
  refine ⟨⟨?_, ?_, ?_⟩, ?_, ?_, ?_⟩
  · exact assignFold_bounded ks (st, false) hb
  · exact assignFold_keys_nodup ks (st, false) hk
  · exact assignFold_vals_nodup ks (st, false) hb hv
  · intro k v hkv
    exact assignFold_preserve ks (st, false) k v hkv
  · exact assignFold_counter_mono ks (st, false)
  · exact assignFold_idem ks ((assignKeys st ks).1, false)
      (fun k hkm => assignFold_domain ks (st, false) k hkm)

theorem claim_C4_witness :
    WFSeq ⟨2, [("a", 1), ("b", 2)]⟩ ∧
    (WFSeq (assignKeys ⟨2, [("a", 1), ("b", 2)]⟩ ["a", "c"]).1
  ∧ (∀ k v, alookup (SeqState.mk 2 [("a", 1), ("b", 2)]).map k = some v →
      alookup (assignKeys ⟨2, [("a", 1), ("b", 2)]⟩ ["a", "c"]).1.map k = some v)
  ∧ (2 : Nat) ≤ (assignKeys ⟨2, [("a", 1), ("b", 2)]⟩ ["a", "c"]).1.counter
  ∧ assignKeys (assignKeys ⟨2, [("a", 1), ("b", 2)]⟩ ["a", "c"]).1 ["a", "c"] =
      ((assignKeys ⟨2, [("a", 1), ("b", 2)]⟩ ["a", "c"]).1, false)) :=
  ⟨by decide, claim_C4 ⟨2, [("a", 1), ("b", 2)]⟩ ["a", "c"] (by decide)⟩

/-- C5 counterexample: the comparator treats a missing published_utc as
epoch 0, and Date.parse of a pre-1970 ISO timestamp is negative (the
modelled dpC5 value is the one the ECMAScript specification fixes for
this string), so among equal-sequence items the missing-timestamp item
sorts above the 1969 item instead of lowest. -/
def dpC5 : String → Option Int :=
  fun s => if s = "1969-06-01T00:00:00Z" then some (-18316800000) else none

def missingItem : Item := emptyItem

def preEpochItem : Item := { emptyItem with published_utc := some "1969-06-01T00:00:00Z" }

theorem claim_C5_cex :
    missingItem.published_utc = none
  ∧ truthy preEpochItem.published_utc = true
  ∧ parseTime dpC5 missingItem = 0
  ∧ parseTime dpC5 preEpochItem < 0
  ∧ sortItems dpC5 [(preEpochItem, 5), (missingItem, 5)] =
      [(missingItem, 5), (preEpochItem, 5)] := by
  refine ⟨rfl, by decide, by decide, by decide, by decide⟩

/-- C5 (amended): the ordering engine sorts by sequence number descending
first and by parsed published time descending among equal sequence
numbers, where a missing or unparsable published_utc parses to epoch 0;
epoch 0 is not the minimum when a pre-1970 timestamp is present. -/
theorem claim_C5 (dp : String → Option Int) (l : List (Item × Nat)) :
    (sortItems dp l).Perm l
  ∧ (sortItems dp l).Pairwise
      (fun a b => b.2 < a.2 ∨ (b.2 = a.2 ∧ parseTime dp b.1 ≤ parseTime dp a.1)) :=
  ⟨sortItems_perm dp l, sortItems_pairwise dp l⟩

/-- C6: a key first seen in the second assign cycle gets a sequence
number strictly above every number stored after the first cycle, and the
sort places any item with a strictly larger sequence number before any
item with a smaller one. -/
theorem claim_C6 :
    (∀ (st0 : SeqState) (ks1 ks2 : List String) (k : String), Bounded st0 →
      alookup (assignKeys st0 ks1).1.map k = none → k ∈ ks2 →
      ∃ v2, alookup (assignKeys (assignKeys st0 ks1).1 ks2).1.map k = some v2 ∧
        ∀ k1 v1, alookup (assignKeys st0 ks1).1.map k1 = some v1 → v1 < v2)
  ∧ (∀ (dp : String → Option Int) (l pre mid post : List (Item × Nat)) (x y : Item × Nat),
      sortItems dp l = pre ++ x :: (mid ++ y :: post) → y.2 ≤ x.2) := by
  constructor
  · intro st0 ks1 ks2 k hb hnew hmem
    have hb1 : Bounded (assignKeys st0 ks1).1 := assignFold_bounded ks1 (st0, false) hb
    rcases assignFold_new_key ks2 (assignKeys st0 ks1).1 k hmem hnew with ⟨v2, hv2, hgt, _⟩
    refine ⟨v2, hv2, ?_⟩
    intro k1 v1 h1
    have := hb1 (k1, v1) (alookup_mem _ _ _ h1)
    omega
  · intro dp l pre mid post x y h
    have hp := sortItems_pairwise dp l
    rw [h] at hp
    rcases pairwise_of_split _ pre mid post x y hp with h1 | h1
    · omega
    · omega

theorem claim_C6_witness :
    Bounded ⟨0, []⟩ ∧
    (∃ v2, alookup (assignKeys (assignKeys ⟨0, []⟩ ["a"]).1 ["b"]).1.map "b" = some v2 ∧
      ∀ k1 v1, alookup (assignKeys ⟨0, []⟩ ["a"]).1.map k1 = some v1 → v1 < v2) :=
  ⟨by decide, claim_C6.1 ⟨0, []⟩ ["a"] ["b"] "b" (by decide) (by decide) (by decide)⟩

/-- C7 counterexample: a stored record whose counter is the non-numeric
string "abc" is valid JSON of the right general shape, and loadSeqState
returns counter NaN (the Number coercion of a truthy non-numeric value)
with the stored map, not the fresh record. -/
def badCounterJson : String := "\x7b\x22counter\x22:\x22abc\x22,\x22map\x22:\x7b\x7d\x7d"

def jpC7 : String → Except Unit JVal := fun s =>
  if s = badCounterJson then .ok (.obj [("counter", .str "abc"), ("map", .obj [])])
  else .error ()

theorem claim_C7_cex :
    loadSeqState jpC7 (some badCounterJson) = (.nan, .obj [])
  ∧ loadSeqState jpC7 (some badCounterJson) ≠ freshRecord := by
  refine ⟨rfl, ?_⟩
  intro h
  have h2 : JsNum.nan = JsNum.fin 0 := congrArg Prod.fst h
  exact absurd h2 (by decide)

/-- C7 (amended): loadSeqState is total and never throws; an absent or
empty stored value, a JSON.parse failure, or a non-object parse yields
the fresh record counter 0 and empty map; an object parse is salvaged
componentwise: counter becomes Number(counter || 0), which is NaN for a
truthy non-numeric counter, and map is kept only when it is a truthy
object, else replaced by the empty map. -/
theorem claim_C7 :
    (∀ jp, loadSeqState jp none = freshRecord)
  ∧ (∀ jp, loadSeqState jp (some "") = freshRecord)
  ∧ (∀ jp s, jp s = .error () → loadSeqState jp (some s) = freshRecord)
  ∧ (∀ jp s p, s ≠ "" → jp s = .ok p →
      loadSeqState jp (some s) = (loadCounter p, loadMap p))
  ∧ (∀ p : JVal, (∀ fs, p ≠ .obj fs) → (loadCounter p, loadMap p) = freshRecord)
  ∧ loadCounter (.obj [("counter", .str "abc"), ("map", .obj [])]) = .nan := by
  refine ⟨?_, ?_, ?_, ?_, ?_, by decide⟩
  · intro jp
    rfl
  · intro jp
    rfl
  · intro jp s h
    by_cases hs : s = ""
    · subst hs
      rfl
    · simp only [loadSeqState]
      rw [if_neg hs, h]
  · intro jp s p hs h
    simp only [loadSeqState]
    rw [if_neg hs, h]
  · intro p h
    cases p with
    | null => rfl
    | bool b => rfl
    | num n => rfl
    | str s => rfl
    | arr xs => rfl
    | obj fs => exact absurd rfl (h fs)

theorem claim_C7_witness :
    ((fun _ : String => (Except.error () : Except Unit JVal)) "\x7bnot json" =
      Except.error ()) ∧
    loadSeqState (fun _ => .error ()) (some "\x7bnot json") = freshRecord :=
  ⟨rfl, claim_C7.2.2.1 (fun _ => .error ()) "\x7bnot json" rfl⟩

/-- C8: an assign pass reports touched exactly when some input key had no
stored assignment, and the storage round trip rewrites the durable value
iff that is the case, leaving it untouched when every key is known. -/
theorem claim_C8 :
    (∀ (st : SeqState) (ks : List String),
      (assignKeys st ks).2 = true ↔ ∃ k ∈ ks, alookup st.map k = none)
  ∧ (∀ (store : Option SeqState) (ks : List String),
      (∀ k ∈ ks, (alookup (store.getD freshState).map k).isSome = true) →
      runCycleStore store ks = store)
  ∧ (∀ (store : Option SeqState) (ks : List String),
      (∃ k ∈ ks, alookup (store.getD freshState).map k = none) →
      runCycleStore store ks = some (assignKeys (store.getD freshState) ks).1) := by
  refine ⟨?_, ?_, ?_⟩
  · intro st ks
    exact assignFold_touched_iff ks st
  · intro store ks h
    have hidem : assignKeys (store.getD freshState) ks = (store.getD freshState, false) :=
      assignFold_idem ks (store.getD freshState, false) h
    simp only [runCycleStore]
    rw [hidem]
    simp
  · intro store ks h
    have ht : (assignKeys (store.getD freshState) ks).2 = true :=
      (assignFold_touched_iff ks (store.getD freshState)).mpr h
    simp only [runCycleStore]
    rw [ht]
    simp

theorem claim_C8_witness :
    (∀ k ∈ ["a"], (alookup ((some (SeqState.mk 1 [("a", 1)])).getD freshState).map k).isSome
      = true) ∧
    runCycleStore (some ⟨1, [("a", 1)]⟩) ["a"] = some ⟨1, [("a", 1)]⟩ :=
  ⟨by decide, claim_C8.2.1 (some ⟨1, [("a", 1)]⟩) ["a"] (by decide)⟩

/-- C9: for any two input items sharing a non-empty cluster_id, exactly
one item with that cluster identity key survives deduplication, and the
count is one for every permutation of the input. -/
theorem claim_C9 (dp : String → Option Int) (items : List Item) (a b : Item) (X : String)
    (ha : a ∈ items) (_hb : b ∈ items) (hX : X ≠ "")
    (hca : a.cluster_id = some X) (_hcb : b.cluster_id = some X) :
    (dedupeItems dp items).countP (fun o => decide (dedupeKey o = "c:" ++ X)) = 1
  ∧ ∀ items2 : List Item, items2.Perm items →
      (dedupeItems dp items2).countP (fun o => decide (dedupeKey o = "c:" ++ X)) = 1 := by
  have hkey : dedupeKey a = "c:" ++ X := dedupeKey_cluster a X hX hca
  have hmem : "c:" ++ X ∈ items.map dedupeKey := List.mem_map.mpr ⟨a, ha, hkey⟩
  refine ⟨dedupeItems_count_one dp items _ hmem, ?_⟩
  intro items2 hperm
  have hmem2 : "c:" ++ X ∈ items2.map dedupeKey :=
    (hperm.map dedupeKey).mem_iff.mpr hmem
  exact dedupeItems_count_one dp items2 _ hmem2

theorem claim_C9_witness :
    (itemOnlyCluster ∈ [itemOnlyCluster, itemBothC1] ∧
     itemBothC1 ∈ [itemOnlyCluster, itemBothC1] ∧
     itemOnlyCluster.cluster_id = some "X" ∧ itemBothC1.cluster_id = some "X") ∧
    (dedupeItems (fun _ => none) [itemOnlyCluster, itemBothC1]).countP
      (fun o => decide (dedupeKey o = "c:" ++ "X")) = 1 :=
  ⟨⟨by decide, by decide, by decide, by decide⟩,
    (claim_C9 (fun _ => none) [itemOnlyCluster, itemBothC1] itemOnlyCluster itemBothC1 "X"
      (by decide) (by decide) (by decide) (by decide) (by decide)).1⟩

/-- C10: deduplication keeps exactly one survivor per distinct identity
key, listed in first-occurrence order of the keys (firstOccs); the
item-level assign pass is the key-level fold over the survivors in that
order; and two keys that are both new are assigned strictly increasing
numbers in list order. -/
theorem claim_C10 :
    (∀ (dp : String → Option Int) (items : List Item),
      (dedupeItems dp items).map dedupeKey = firstOccs (items.map dedupeKey))
  ∧ (∀ (dp : String → Option Int) (items : List Item),
      ((dedupeItems dp items).map dedupeKey).Nodup)
  ∧ (∀ (st : SeqState) (items : List Item),
      (assignStableSeq st items).2 = assignKeys st (items.map dedupeKey))
  ∧ (∀ (st : SeqState) (pre mid post : List String) (ka kb : String),
      (pre ++ ka :: (mid ++ kb :: post)).Nodup →
      alookup st.map ka = none → alookup st.map kb = none →
      ∃ va vb,
        alookup (assignKeys st (pre ++ ka :: (mid ++ kb :: post))).1.map ka = some va ∧
        alookup (assignKeys st (pre ++ ka :: (mid ++ kb :: post))).1.map kb = some vb ∧
        va < vb) := by
  refine ⟨?_, ?_, ?_, ?_⟩
  · intro dp items
    exact dedupeItems_keys dp items
  · intro dp items
    exact dedupeItems_keys_nodup dp items
  · intro st items
    exact assignStableSeq_state st items
  · intro st pre mid post ka kb hnd ha hb
    exact assignFold_increasing st pre mid post ka kb hnd ha hb

theorem claim_C10_witness :
    (["p", "a", "b"].Nodup ∧
     alookup (SeqState.mk 0 []).map "a" = none ∧
     alookup (SeqState.mk 0 []).map "b" = none) ∧
    (∃ va vb,
      alookup (assignKeys ⟨0, []⟩ (["p"] ++ "a" :: ([] ++ "b" :: []))).1.map "a" = some va ∧
      alookup (assignKeys ⟨0, []⟩ (["p"] ++ "a" :: ([] ++ "b" :: []))).1.map "b" = some vb ∧
      va < vb) :=
  ⟨⟨by decide, by decide, by decide⟩,
    claim_C10.2.2.2 ⟨0, []⟩ ["p"] [] [] "a" "b" (by decide) (by decide) (by decide)⟩

end NewsRiver
